import Mathlib

/-!
Verification of the ICD11-Retriever pipeline
(`src/icd11_retriever/ICD11_Retriever.py`).

The pipeline has three stages, embedded here as pure functions:

* `ICD11Processor` — normalizes raw JSON entries (`extract_values`,
  `process`).  Python dicts are embedded as association lists
  (`List (String × _)`) preserving insertion order, with dict
  assignment (`alistSet`) replacing in place or appending, exactly as
  CPython dicts behave.
* `ICD11HierarchyBuilder` — derives short identifiers from URL-shaped
  references (`extract_uid`, `extract_uids`) and builds the adjacency
  map (`build`).  Python truthiness and string iteration (a `for` over
  a string yields one-character strings) are modelled explicitly.
* `ICD11GraphBuilder` — loads the adjacency map into a directed graph
  (networkx `DiGraph` semantics: node insertion order, attribute
  merge, idempotent edge insertion, per-node successor insertion
  order) and answers the two title-scan queries.  The `None` graph of
  an unbuilt builder is `Option Graph`'s `none`; a raised `ValueError`
  is `Except.error`; Python's empty-dict "no result" is `none`.
-/

namespace ICD11

/-- value of a `parent`/`child` field as stored in the JSON: either a single
reference string or a list of reference strings. -/
inductive RefField
  | str (s : String)
  | list (l : List String)
deriving DecidableEq, Repr

/-- a raw JSON entry, restricted to the fields the code reads.  `title` and
`definition` model the nested object: the outer `Option` is presence of the
field, the inner `Option String` is presence of its `@value`.  Each element
of `synonym` models a synonym object's `label` (outer) and its `@value`
(inner). -/
structure RawEntry where
  atId : Option String
  parent : Option RefField
  child : Option RefField
  title : Option (Option String)
  definition : Option (Option String)
  synonym : Option (List (Option (Option String)))
deriving DecidableEq, Repr

/-- the normalized record produced by `ICD11Processor.extract_values`
(Python dict `ICD11_subset`).  `defn` is the Python key `def`. -/
structure NormalizedRecord where
  id : Option String
  parent : RefField
  child : RefField
  title : String
  defn : String
  synonyms : List String
deriving DecidableEq, Repr

/-- Python dict lookup on an association list (`d.get(k)`): first (= only,
for dicts) binding of the key. -/
def alistGet? {α : Type} : List (String × α) → String → Option α
  | [], _ => none
  | p :: l, k => if p.1 = k then some p.2 else alistGet? l k

/-- Python dict assignment `d[k] = v`: replace the binding in place if the
key is present, otherwise append at the end (CPython insertion-order
semantics). -/
def alistSet {α : Type} : List (String × α) → String → α → List (String × α)
  | [], k, v => [(k, v)]
  | p :: l, k, v => if p.1 = k then (k, v) :: l else p :: alistSet l k v

namespace ICD11Processor

/-- `syn.get('label', {}).get('@value', '')` for one synonym object. -/
def synLabelValue (syn : Option (Option String)) : String :=
  match syn with
  | none => ""
  | some v => v.getD ""

/-- embedding of `ICD11Processor.extract_values`: per-field `.get` with the
defaults the source uses, and the synonym comprehension that keeps only
truthy (non-empty) label values. -/
def extract_values (e : RawEntry) : NormalizedRecord :=
  { id := e.atId
    parent := e.parent.getD (.str "")
    child := e.child.getD (.str "")
    title := (e.title.getD none).getD ""
    defn := (e.definition.getD none).getD ""
    synonyms :=
      match e.synonym with
      | none => []
      | some syns => (syns.map synLabelValue).filter (fun s => decide (s ≠ "")) }

/-- Python truthiness of the extracted `id`: `if entry_id:` accepts it only
when it is present and non-empty.  Returns the id in that case. -/
def idKey (r : NormalizedRecord) : Option String :=
  match r.id with
  | none => none
  | some s => if s = "" then none else some s

/-- one iteration of `process`'s loop body: normalize the entry's value
and store it under its truthy id, or skip it. -/
def processStep (acc : List (String × NormalizedRecord)) (kv : String × RawEntry) :
    List (String × NormalizedRecord) :=
  let r := extract_values kv.2
  match idKey r with
  | some i => alistSet acc i r
  | none => acc

/-- embedding of `ICD11Processor.process`: fold over the raw items in
document order, keying each surviving record by its own truthy id (the raw
key is not consulted). -/
def process (data : List (String × RawEntry)) : List (String × NormalizedRecord) :=
  data.foldl processStep []

end ICD11Processor

namespace ICD11HierarchyBuilder

/-- embedding of `extract_uid`: `url.rsplit('/', 1)[-1]`, the suffix of the
string after its last '/' (the whole string when there is none). -/
def extract_uid (url : String) : String :=
  String.mk ((url.data.reverse.takeWhile (fun c => decide (c ≠ '/'))).reverse)

/-- embedding of `extract_uids`: `[extract_uid(u) for u in urls] if urls
else []`.  A falsy field (empty string or empty list) yields `[]`; a
non-empty string is iterated character by character, each character being a
one-character string in Python. -/
def extract_uids (urls : RefField) : List String :=
  match urls with
  | .str s => if s = "" then [] else s.data.map (fun c => extract_uid (String.mk [c]))
  | .list l => if l = [] then [] else l.map extract_uid

/-- hierarchy node stored in `self.Data` by `ICD11HierarchyBuilder.build`.
`defn` is the Python key `def`. -/
structure HierarchyNode where
  title : String
  defn : String
  synonyms : List String
  parents : List String
  children : List String
deriving DecidableEq, Repr

/-- the node `build` stores for one normalized record. -/
def mkHierNode (v : NormalizedRecord) : HierarchyNode :=
  { title := v.title
    defn := v.defn
    synonyms := v.synonyms
    parents := extract_uids v.parent
    children := extract_uids v.child }

/-- embedding of `ICD11HierarchyBuilder.build`: key each record's node by
the short id of its long key, later duplicates overwriting in place.  (The
write-only `UUIDs` set of the source is omitted: it is never read.) -/
def build (icd : List (String × NormalizedRecord)) : List (String × HierarchyNode) :=
  icd.foldl (fun d kv => alistSet d (extract_uid kv.1) (mkHierNode kv.2)) []

end ICD11HierarchyBuilder

namespace ICD11GraphBuilder

open ICD11HierarchyBuilder

/-- the three attributes `build` attaches to a graph node. -/
structure NodeAttrs where
  title : String
  definition : String
  synonyms : List String
deriving DecidableEq, Repr

/-- a networkx `DiGraph` as the code uses it: nodes in insertion order, a
node's attribute dict either fully set (`some`) or empty (`none`, a bare
node created by `add_edge`); edges in insertion order, no duplicates. -/
structure Graph where
  nodes : List (String × Option NodeAttrs)
  edges : List (String × String)
deriving DecidableEq, Repr

/-- `add_node` on the node list: set the attributes of an existing node in
place, or append a fresh node. -/
def setNodeAttrs : List (String × Option NodeAttrs) → String → NodeAttrs →
    List (String × Option NodeAttrs)
  | [], k, a => [(k, some a)]
  | p :: l, k, a => if p.1 = k then (k, some a) :: l else p :: setNodeAttrs l k a

/-- `add_edge`'s implicit node creation: append a bare node unless the key
is already present. -/
def ensureBare : List (String × Option NodeAttrs) → String →
    List (String × Option NodeAttrs)
  | [], k => [(k, none)]
  | p :: l, k => if p.1 = k then p :: l else p :: ensureBare l k

/-- `G.add_node(k, title=…, definition=…, synonyms=…)`. -/
def addNode (g : Graph) (k : String) (a : NodeAttrs) : Graph :=
  { g with nodes := setNodeAttrs g.nodes k a }

/-- `G.add_edge(u, v)`: create missing endpoints as bare nodes, then add
the edge when it is not already present. -/
def addEdge (g : Graph) (u v : String) : Graph :=
  let g1 : Graph := { g with nodes := ensureBare (ensureBare g.nodes u) v }
  if (u, v) ∈ g1.edges then g1 else { g1 with edges := g1.edges ++ [(u, v)] }

/-- one iteration of `ICD11GraphBuilder.build`'s loop body. -/
def addNodeEdges (g : Graph) (kv : String × HierarchyNode) : Graph :=
  kv.2.children.foldl (fun h c => addEdge h kv.1 c)
    (addNode g kv.1 ⟨kv.2.title, kv.2.defn, kv.2.synonyms⟩)

/-- embedding of `ICD11GraphBuilder.build`. -/
def build (hier : List (String × HierarchyNode)) : Graph :=
  hier.foldl addNodeEdges ⟨[], []⟩

/-- a key is absent from the node list or present as a bare node (empty
attribute dict); proof-level predicate used to track that a node never
visited as a hierarchy key never receives attributes. -/
def BareAt (ns : List (String × Option NodeAttrs)) (c : String) : Prop :=
  alistGet? ns c = none ∨ alistGet? ns c = some none

/-- `self.G.nodes[k].get('title', '')`: the empty string on a bare node. -/
def nodeTitle (a : Option NodeAttrs) : String :=
  match a with
  | some a => a.title
  | none => ""

/-- `self.G.successors(u)`: targets of the `u`-sourced edges, in the order
they were inserted. -/
def succs (g : Graph) (u : String) : List String :=
  (g.edges.filter (fun e => decide (e.1 = u))).map (·.2)

/-- one element of the `children` list of `get_children_with_info`. -/
structure ChildInfo where
  id : String
  title : String
  definition : String
  synonyms : List String
deriving DecidableEq, Repr

/-- the per-child dict: attribute lookups with `'N/A'` / `[]` defaults,
which fire exactly on bare nodes. -/
def childInfo (g : Graph) (c : String) : ChildInfo :=
  match alistGet? g.nodes c with
  | some (some a) => ⟨c, a.title, a.definition, a.synonyms⟩
  | _ => ⟨c, "N/A", "N/A", []⟩

/-- result dict of `get_children_with_info`. -/
structure ChildrenResult where
  parent_id : String
  parent_title : String
  children : List ChildInfo
deriving DecidableEq, Repr

/-- the result assembled for one matching node of the scan. -/
def childrenResultFor (g : Graph) (p : String × Option NodeAttrs) : ChildrenResult :=
  { parent_id := p.1
    parent_title := nodeTitle p.2
    children := (succs g p.1).map (childInfo g) }

/-- embedding of `get_children_with_info`: `ValueError` on an unbuilt
graph, otherwise a full scan overwriting a single result slot, the empty
dict (`none`) when no title matches. -/
def get_children_with_info (G : Option Graph) (target_title : String) :
    Except String (Option ChildrenResult) :=
  match G with
  | none => .error "Graph not built. Call build() first."
  | some g =>
    .ok (g.nodes.foldl
      (fun res p =>
        if nodeTitle p.2 = target_title then some (childrenResultFor g p) else res)
      none)

/-- new successors of members of `acc` that are not yet in `acc`, without
duplicates: the frontier of one saturation step of reachability. -/
def newSuccs (g : Graph) (acc : List String) : List String :=
  ((acc.flatMap (succs g)).filter (fun y => decide (y ∉ acc))).dedup

/-- one saturation step. -/
def expand (g : Graph) (acc : List String) : List String :=
  acc ++ newSuccs g acc

/-- edge targets not yet collected: the termination measure of the
saturation, used only by the proofs (every node `newSuccs` adds is an edge
target outside `acc`). -/
def notYet (g : Graph) (acc : List String) : List String :=
  (g.edges.map (·.2)).filter (fun c => decide (c ∉ acc))

/-- iterated saturation. -/
def iterExpand (g : Graph) (acc : List String) : Nat → List String
  | 0 => acc
  | n + 1 => iterExpand g (expand g acc) n

/-- the set of nodes reachable from `u` (including `u`), computed by
saturation; `g.edges.length` steps always reach the fixpoint since every
newly added node is an edge target. -/
def reachList (g : Graph) (u : String) : List String :=
  iterExpand g [u] g.edges.length

/-- embedding of `nx.descendants(G, u)`: every node reachable from `u`,
excluding `u` itself. -/
def descList (g : Graph) (u : String) : List String :=
  (reachList g u).filter (fun v => decide (v ≠ u))

/-- result dict of `get_all_descendants_by_title`. -/
structure DescResult where
  node_id : String
  title : String
  direct_children : List String
  all_descendants : List String
  direct_children_count : Nat
  total_descendants_count : Nat
deriving DecidableEq, Repr

/-- the result assembled for one matching node of the descendant scan. -/
def descResultFor (g : Graph) (p : String × Option NodeAttrs) : DescResult :=
  { node_id := p.1
    title := nodeTitle p.2
    direct_children := succs g p.1
    all_descendants := descList g p.1
    direct_children_count := (succs g p.1).length
    total_descendants_count := (descList g p.1).length }

/-- embedding of `get_all_descendants_by_title`: same error, scan and
empty-result conventions as `get_children_with_info`. -/
def get_all_descendants_by_title (G : Option Graph) (target_title : String) :
    Except String (Option DescResult) :=
  match G with
  | none => .error "Graph not built. Call build() first."
  | some g =>
    .ok (g.nodes.foldl
      (fun res p =>
        if nodeTitle p.2 = target_title then some (descResultFor g p) else res)
      none)

/-- the edge relation of a graph, for stating reachability. -/
def edgeRel (g : Graph) (x y : String) : Prop :=
  (x, y) ∈ g.edges

end ICD11GraphBuilder

open ICD11Processor ICD11HierarchyBuilder ICD11GraphBuilder

/-! Concrete inputs used by counterexamples and witnesses. -/

/-- the two-entry scenario input exactly as the spec writes it: neither
entry carries an `@id` field. -/
def scenarioRaw : List (String × RawEntry) :=
  [("http://x/A",
    { atId := none, parent := none, child := some (.list ["http://x/B"]),
      title := some (some "Root"), definition := none, synonym := none }),
   ("http://x/B",
    { atId := none, parent := some (.list ["http://x/A"]), child := none,
      title := some (some "Leaf"), definition := none, synonym := none })]

/-- the scenario input repaired so that each entry carries an `@id` equal
to its key, as real ICD-11 exports do. -/
def scenarioRawId : List (String × RawEntry) :=
  [("http://x/A",
    { atId := some "http://x/A", parent := none, child := some (.list ["http://x/B"]),
      title := some (some "Root"), definition := none, synonym := none }),
   ("http://x/B",
    { atId := some "http://x/B", parent := some (.list ["http://x/A"]), child := none,
      title := some (some "Leaf"), definition := none, synonym := none })]

/-- the graph the pipeline builds from the repaired scenario input. -/
def scenarioGraph : Graph :=
  ICD11GraphBuilder.build (ICD11HierarchyBuilder.build (process scenarioRawId))

/-- a normalized record whose `parent` field is a single non-empty
reference string rather than a list. -/
def singleParentRec : NormalizedRecord :=
  { id := some "P", parent := .str "http://x/A", child := .str "",
    title := "", defn := "", synonyms := [] }

/-- a hierarchy with one titled node and no children. -/
def singleHier : List (String × HierarchyNode) :=
  [("A", { title := "Root", defn := "", synonyms := [], parents := [],
           children := [] })]

/-- the graph built from `singleHier`. -/
def singleGraph : Graph := ICD11GraphBuilder.build singleHier

/-- a hierarchy in which two distinct nodes carry the same title `"T"`. -/
def dupTitleHier : List (String × HierarchyNode) :=
  [("A", { title := "T", defn := "", synonyms := [], parents := [],
           children := ["C"] }),
   ("B", { title := "T", defn := "", synonyms := [], parents := [],
           children := [] })]

/-- the graph built from `dupTitleHier`; its node order is `A`, `C`
(bare), `B`. -/
def dupTitleGraph : Graph := ICD11GraphBuilder.build dupTitleHier

/-- a one-entry hierarchy whose child `"B"` never appears as a key. -/
def singleChildHier : List (String × HierarchyNode) :=
  [("A", { title := "Root", defn := "", synonyms := [], parents := [],
           children := ["B"] })]

/-- a three-node chain hierarchy `A → B → C`. -/
def chainHier : List (String × HierarchyNode) :=
  [("A", { title := "Root", defn := "", synonyms := [], parents := [],
           children := ["B"] }),
   ("B", { title := "Mid", defn := "", synonyms := [], parents := ["A"],
           children := ["C"] }),
   ("C", { title := "Leaf", defn := "", synonyms := [], parents := ["B"],
           children := [] })]

/-- the graph built from `chainHier`. -/
def chainGraph : Graph := ICD11GraphBuilder.build chainHier

/-- a raw entry whose `@id` differs from the key it is stored under. -/
def mismatchedIdEntry : RawEntry :=
  { atId := some "D", parent := none, child := none,
    title := none, definition := none, synonym := none }

/-- a raw entry whose `@id` is present but is the empty string. -/
def emptyIdEntry : RawEntry :=
  { atId := some "", parent := none, child := none,
    title := none, definition := none, synonym := none }

/-! Helper lemmas on lists and strings. -/

theorem takeWhile_eq_self_of_forall {α : Type} (p : α → Bool) :
    ∀ l : List α, (∀ c ∈ l, p c = true) → l.takeWhile p = l := by
  intro l h
  induction l with
  | nil => rfl
  | cons a l ih =>
    simp only [List.takeWhile_cons, h a (List.mem_cons_self a l), if_true,
      List.cons.injEq, true_and]
    exact ih fun c hc => h c (List.mem_cons_of_mem a hc)

theorem takeWhile_append_sep {α : Type} (p : α → Bool) (x : α) (hx : p x = false) :
    ∀ l₁ l₂ : List α, (∀ c ∈ l₁, p c = true) →
      (l₁ ++ x :: l₂).takeWhile p = l₁ := by
  intro l₁ l₂ h
  induction l₁ with
  | nil => simp [List.takeWhile_cons, hx]
  | cons a l ih =>
    simp only [List.cons_append, List.takeWhile_cons,
      h a (List.mem_cons_self a l), if_true, List.cons.injEq, true_and]
    exact ih fun c hc => h c (List.mem_cons_of_mem a hc)

theorem getLast?_cons_elim {α : Type} (a : α) (l : List α) :
    (a :: l).getLast? = (l.getLast?).elim (some a) some := by
  cases l with
  | nil => rfl
  | cons b m =>
    rw [List.getLast?_cons_cons]
    cases h : (b :: m).getLast? with
    | none =>
      exfalso
      rw [List.getLast?_eq_none_iff] at h
      cases h
    | some x => rfl

/-- the single-result-slot scan the two query methods share: its outcome is
determined by the last title-matching node, the initial slot value
surviving only when no node matches. -/
theorem scan_eq {β : Type} (t : String)
    (F : String × Option NodeAttrs → β) :
    ∀ (l : List (String × Option NodeAttrs)) (init : Option β),
      l.foldl (fun res p => if nodeTitle p.2 = t then some (F p) else res) init
        = ((l.filter fun p => decide (nodeTitle p.2 = t)).getLast?).elim init
            (fun p => some (F p)) := by
  intro l
  induction l with
  | nil => intro init; rfl
  | cons p l ih =>
    intro init
    rw [List.foldl_cons, ih, List.filter_cons]
    simp only [decide_eq_true_eq]
    by_cases hp : nodeTitle p.2 = t
    · rw [if_pos hp, if_pos hp, getLast?_cons_elim]
      cases hfl : (l.filter fun q => decide (nodeTitle q.2 = t)).getLast? with
      | none => rfl
      | some q => rfl
    · rw [if_neg hp, if_neg hp]

theorem mem_alistSet {α : Type} (k : String) (v : α) :
    ∀ (l : List (String × α)) (p : String × α),
      p ∈ alistSet l k v → p = (k, v) ∨ p ∈ l := by
  intro l
  induction l with
  | nil =>
    intro p hp
    simp only [alistSet, List.mem_singleton] at hp
    exact Or.inl hp
  | cons q l ih =>
    intro p hp
    by_cases hq : q.1 = k
    · simp only [alistSet, if_pos hq, List.mem_cons] at hp
      rcases hp with hp | hp
      · exact Or.inl hp
      · exact Or.inr (List.mem_cons_of_mem q hp)
    · simp only [alistSet, if_neg hq, List.mem_cons] at hp
      rcases hp with hp | hp
      · exact Or.inr (hp ▸ List.mem_cons_self q l)
      · rcases ih p hp with h | h
        · exact Or.inl h
        · exact Or.inr (List.mem_cons_of_mem q h)

theorem alistGet?_alistSet {α : Type} (k : String) (v : α) :
    ∀ (l : List (String × α)) (k2 : String),
      alistGet? (alistSet l k v) k2
        = if k = k2 then some v else alistGet? l k2 := by
  intro l
  induction l with
  | nil =>
    intro k2
    simp [alistSet, alistGet?]
  | cons q l ih =>
    intro k2
    by_cases hq : q.1 = k
    · obtain ⟨q1, q2⟩ := q
      simp only at hq
      subst hq
      rcases eq_or_ne q1 k2 with hk | hk
      · simp [alistSet, alistGet?, hk]
      · simp [alistSet, alistGet?, hk]
    · by_cases hq2 : q.1 = k2
      · have hk : k ≠ k2 := fun h => hq (hq2.trans h.symm)
        simp only [alistSet, if_neg hq, alistGet?, if_pos hq2, if_neg hk]
      · simp only [alistSet, if_neg hq, alistGet?, if_neg hq2, ih k2]

theorem idKey_eq_some {r : NormalizedRecord} {i : String}
    (h : idKey r = some i) : r.id = some i ∧ i ≠ "" := by
  cases hr : r.id with
  | none => simp [idKey, hr] at h
  | some s =>
    simp only [idKey, hr] at h
    by_cases hs : s = ""
    · simp [hs] at h
    · simp only [if_neg hs, Option.some.injEq] at h
      exact ⟨congrArg some h, fun he => hs (h.trans he)⟩

theorem process_foldl_inv :
    ∀ (data : List (String × RawEntry)) (acc : List (String × NormalizedRecord)),
      (∀ p ∈ acc, p.2.id = some p.1 ∧ p.1 ≠ "") →
      ∀ p ∈ data.foldl processStep acc, p.2.id = some p.1 ∧ p.1 ≠ "" := by
  intro data
  induction data with
  | nil => intro acc hacc p hp; exact hacc p hp
  | cons kv data ih =>
    intro acc hacc p hp
    rw [List.foldl_cons] at hp
    refine ih _ ?_ p hp
    intro q hq
    simp only [processStep] at hq
    split at hq
    · next i heq =>
      rcases mem_alistSet _ _ _ _ hq with h | h
      · subst h
        rcases idKey_eq_some heq with ⟨h1, h2⟩
        exact ⟨h1, h2⟩
      · exact hacc q h
    · exact hacc q hq

theorem foldl_process_preserves_isSome :
    ∀ (data : List (String × RawEntry)) (acc : List (String × NormalizedRecord))
      (i : String), (alistGet? acc i).isSome →
      (alistGet? (data.foldl processStep acc) i).isSome := by
  intro data
  induction data with
  | nil => intro acc i h; exact h
  | cons kv data ih =>
    intro acc i h
    rw [List.foldl_cons]
    refine ih _ i ?_
    simp only [processStep]
    split
    · next j heq =>
      rw [alistGet?_alistSet]
      by_cases hj : j = i
      · simp [hj]
      · simpa [hj] using h
    · exact h

theorem process_truthy_id_key_present :
    ∀ (data : List (String × RawEntry)) (k : String) (v : RawEntry) (i : String),
      (k, v) ∈ data → idKey (extract_values v) = some i →
      (alistGet? (process data) i).isSome := by
  intro data k v i hmem hid
  obtain ⟨s, t, rfl⟩ := List.append_of_mem hmem
  unfold process
  rw [List.foldl_append, List.foldl_cons]
  apply foldl_process_preserves_isSome
  simp only [processStep]
  split
  · next j heq =>
    have : j = i := by
      rw [show idKey (extract_values (k, v).2) = idKey (extract_values v) from rfl,
        hid] at heq
      exact (Option.some.injEq _ _ ▸ heq).symm
    subst this
    rw [alistGet?_alistSet]
    simp
  · next heq =>
    rw [show idKey (extract_values (k, v).2) = idKey (extract_values v) from rfl,
      hid] at heq
    cases heq

/-! Claim theorems. -/

/-- C7: `extract_uid` returns the substring after the last '/' separator;
it is the identity on strings containing no '/', sends `"http://a/b/c"` to
`"c"`, and is idempotent. -/
theorem extract_uid_spec :
    (∀ a b : String, '/' ∉ b.data → extract_uid (a ++ "/" ++ b) = b) ∧
    (∀ s : String, '/' ∉ s.data → extract_uid s = s) ∧
    extract_uid "http://a/b/c" = "c" ∧
    (∀ s : String, extract_uid (extract_uid s) = extract_uid s) := by
  have hid : ∀ s : String, '/' ∉ s.data → extract_uid s = s := by
    intro s hs
    unfold extract_uid
    rw [takeWhile_eq_self_of_forall _ _ ?_, List.reverse_reverse]
    · intro c hc
      simp only [decide_eq_true_eq]
      intro hcon
      exact hs (by simpa [hcon] using (List.mem_reverse).1 hc)
  refine ⟨?_, hid, by decide, ?_⟩
  · intro a b hb
    unfold extract_uid
    have hdata : (a ++ "/" ++ b).data = a.data ++ '/' :: b.data := by
      show (a.data ++ "/".data) ++ b.data = a.data ++ '/' :: b.data
      simp
    rw [hdata, List.reverse_append, List.reverse_cons, List.append_assoc,
      List.singleton_append,
      takeWhile_append_sep _ '/' (by decide) _ _ ?_, List.reverse_reverse]
    · intro c hc
      simp only [decide_eq_true_eq]
      intro hcon
      exact hb (by simpa [hcon] using (List.mem_reverse).1 hc)
  · intro s
    apply hid
    intro hmem
    have := (List.mem_reverse).1 hmem
    have := List.mem_takeWhile_imp this
    simp at this

/-- C1 (counterexample): on the spec's literal scenario input, whose
entries carry no `@id` field, normalization silently drops both entries, so
the normalized output is empty and in particular holds no record keyed
`http://x/A` or `http://x/B`. -/
theorem scenario_literal_input_dropped :
    process scenarioRaw = [] ∧
    alistGet? (process scenarioRaw) "http://x/A" = none ∧
    alistGet? (process scenarioRaw) "http://x/B" = none :=
  ⟨rfl, rfl, rfl⟩

/-- C1 (amended): on the scenario input with each entry additionally
carrying an `@id` equal to its key, the full pipeline produces exactly the
results the claim states: records keyed by the long ids, hierarchy `A ↦
children ["B"]` and `B ↦ parents ["A"]`, the edge `A→B`, the stated
`get_children_with_info` result, and descendant counts 1 and 1. -/
theorem scenario_pipeline_amended :
    process scenarioRawId =
      [("http://x/A",
        { id := some "http://x/A", parent := .str "",
          child := .list ["http://x/B"], title := "Root", defn := "",
          synonyms := [] }),
       ("http://x/B",
        { id := some "http://x/B", parent := .list ["http://x/A"],
          child := .str "", title := "Leaf", defn := "", synonyms := [] })] ∧
    ICD11HierarchyBuilder.build (process scenarioRawId) =
      [("A", { title := "Root", defn := "", synonyms := [], parents := [],
               children := ["B"] }),
       ("B", { title := "Leaf", defn := "", synonyms := [], parents := ["A"],
               children := [] })] ∧
    scenarioGraph.edges = [("A", "B")] ∧
    get_children_with_info (some scenarioGraph) "Root" =
      Except.ok (some
        { parent_id := "A", parent_title := "Root",
          children := [{ id := "B", title := "Leaf", definition := "",
                         synonyms := [] }] }) ∧
    get_all_descendants_by_title (some scenarioGraph) "Root" =
      Except.ok (some
        { node_id := "A", title := "Root", direct_children := ["B"],
          all_descendants := ["B"], direct_children_count := 1,
          total_descendants_count := 1 }) :=
  ⟨rfl, rfl, rfl, rfl, rfl⟩

/-- C2 (counterexample): for a record whose `parent` field is the single
non-empty reference string `"http://x/A"`, the hierarchy builder does not
store `[extract_uid "http://x/A"] = ["A"]`; Python iterates the string
character by character, so it stores the per-character extractions. -/
theorem single_string_parent_cex :
    (alistGet? (ICD11HierarchyBuilder.build [("P", singleParentRec)])
        "P").map HierarchyNode.parents
      = some ["h", "t", "t", "p", ":", "", "", "x", "", "A"] ∧
    some ["h", "t", "t", "p", ":", "", "", "x", "", "A"]
      ≠ some [extract_uid "http://x/A"] :=
  ⟨rfl, by decide⟩

/-- C2 (amended): the builder stores `extract_uids` of the `parent`/`child`
fields as `parents`/`children`; on a list of references this is the ordered
per-reference short-id extraction, on an absent/empty field it is the empty
sequence, but on a single non-empty reference string it is the iteration of
the string character by character, each one-character string extracted on
its own. -/
theorem extract_uids_amended (v : NormalizedRecord) :
    (mkHierNode v).parents = extract_uids v.parent ∧
    (mkHierNode v).children = extract_uids v.child ∧
    (∀ l : List String, extract_uids (.list l) = l.map extract_uid) ∧
    extract_uids (.str "") = [] ∧
    extract_uids (.list []) = [] ∧
    (∀ s : String, s ≠ "" →
      extract_uids (.str s)
        = s.data.map (fun c => extract_uid (String.mk [c]))) := by
  refine ⟨rfl, rfl, ?_, rfl, rfl, ?_⟩
  · intro l
    cases l with
    | nil => rfl
    | cons a m => simp [extract_uids]
  · intro s hs
    simp [extract_uids, hs]

/-- witness for C2's amended theorem at concrete inputs. -/
theorem extract_uids_amended_witness :
    (mkHierNode singleParentRec).parents = extract_uids singleParentRec.parent ∧
    extract_uids (.str "ab")
      = "ab".data.map (fun c => extract_uid (String.mk [c])) :=
  ⟨(extract_uids_amended singleParentRec).1,
   (extract_uids_amended singleParentRec).2.2.2.2.2 "ab" (by decide)⟩

/-- C3 (counterexample): an entry stored under raw key `"K"` whose `@id` is
`"D"` survives normalization keyed `"D"`, not `"K"`: the raw key is ignored
and the record's id is the `@id` value. -/
theorem raw_key_ignored_cex :
    alistGet? (process [("K", mismatchedIdEntry)]) "K" = none ∧
    process [("K", mismatchedIdEntry)]
      = [("D", extract_values mismatchedIdEntry)] ∧
    (extract_values mismatchedIdEntry).id = some "D" :=
  ⟨rfl, rfl, rfl⟩

/-- C3 (amended): every record in the normalized output is keyed by its own
`id` field, which is the entry's truthy `@id` value (the raw input key is
never consulted). -/
theorem process_record_keyed_by_own_id (data : List (String × RawEntry))
    (k : String) (r : NormalizedRecord) (h : (k, r) ∈ process data) :
    r.id = some k ∧ k ≠ "" :=
  process_foldl_inv data [] (fun p hp => absurd hp (List.not_mem_nil p)) (k, r) h

/-- witness for C3's amended theorem at a concrete input. -/
theorem process_record_keyed_by_own_id_witness :
    (extract_values mismatchedIdEntry).id = some "D" ∧ "D" ≠ "" :=
  process_record_keyed_by_own_id [("K", mismatchedIdEntry)] "D"
    (extract_values mismatchedIdEntry) (by decide)

/-- C6 (counterexample): an entry whose `@id` is present but empty is
excluded from the normalized output even though its canonical id is not
missing, refuting exclusion-iff-missing. -/
theorem empty_id_excluded_cex :
    process [("K", emptyIdEntry)] = [] ∧ emptyIdEntry.atId ≠ none :=
  ⟨rfl, by decide⟩

/-- C6 (amended): normalization never fails — absent sub-fields default to
the empty string or empty sequence — and an entry contributes to the output
exactly through Python truthiness of its `@id`: a present non-empty `@id`
always ends up as a key of the output, and every output record is keyed by
its own truthy `@id`; entries whose `@id` is missing or empty contribute
nothing. -/
theorem process_exclusion_amended (data : List (String × RawEntry)) :
    (∀ i : Option String,
      extract_values ⟨i, none, none, none, none, none⟩
        = ⟨i, .str "", .str "", "", "", []⟩) ∧
    (∀ (k : String) (v : RawEntry) (i : String),
      (k, v) ∈ data → idKey (extract_values v) = some i →
      (alistGet? (process data) i).isSome) ∧
    (∀ (k : String) (r : NormalizedRecord),
      (k, r) ∈ process data → idKey r = some k) := by
  refine ⟨fun i => rfl,
    fun k v i hm hi => process_truthy_id_key_present data k v i hm hi, ?_⟩
  intro k r h
  rcases process_foldl_inv data []
    (fun p hp => absurd hp (List.not_mem_nil p)) (k, r) h with ⟨h1, h2⟩
  have h1' : r.id = some k := h1
  have h2' : k ≠ "" := h2
  simp [idKey, h1', h2']

/-- witness for C6's amended theorem at a concrete input. -/
theorem process_exclusion_amended_witness :
    (alistGet? (process [("K", mismatchedIdEntry)]) "D").isSome = true :=
  (process_exclusion_amended [("K", mismatchedIdEntry)]).2.1 "K"
    mismatchedIdEntry "D" (by decide) (by decide)

/-- witness for C7 at concrete inputs. -/
theorem extract_uid_spec_witness :
    extract_uid ("http://a/b" ++ "/" ++ "c") = "c" ∧ extract_uid "X" = "X" :=
  ⟨extract_uid_spec.1 "http://a/b" "c" (by decide),
   extract_uid_spec.2.1 "X" (by decide)⟩

/-- C5: on a built graph, a target title matching no node's title attribute
makes both queries return the empty result (`none`, Python's empty dict),
not an error. -/
theorem no_title_match_returns_empty (g : Graph) (t : String)
    (h : ∀ p ∈ g.nodes, nodeTitle p.2 ≠ t) :
    get_children_with_info (some g) t = Except.ok none ∧
    get_all_descendants_by_title (some g) t = Except.ok none := by
  have hf : (g.nodes.filter fun p => decide (nodeTitle p.2 = t)) = [] := by
    rw [List.filter_eq_nil_iff]
    intro p hp
    simp only [decide_eq_true_eq]
    exact h p hp
  constructor
  · simp only [get_children_with_info]
    rw [scan_eq t (childrenResultFor g) g.nodes none, hf]
    rfl
  · simp only [get_all_descendants_by_title]
    rw [scan_eq t (descResultFor g) g.nodes none, hf]
    rfl

/-- witness for C5 on a concrete built graph and unmatched title. -/
theorem no_title_match_returns_empty_witness :
    get_children_with_info (some singleGraph) "Nope" = Except.ok none ∧
    get_all_descendants_by_title (some singleGraph) "Nope" = Except.ok none :=
  no_title_match_returns_empty singleGraph "Nope" (by decide)

/-- C8: on a built graph, `get_children_with_info` returns the result
assembled for exactly the last node of the scan whose title matches, the
single result slot having overwritten every earlier match. -/
theorem gcwi_returns_last_match (g : Graph) (t : String)
    (p : String × Option NodeAttrs)
    (h : (g.nodes.filter fun q => decide (nodeTitle q.2 = t)).getLast?
        = some p) :
    get_children_with_info (some g) t
      = Except.ok (some (childrenResultFor g p)) := by
  simp only [get_children_with_info]
  rw [scan_eq t (childrenResultFor g) g.nodes none, h]
  rfl

/-- witness for C8 on a concrete graph with two nodes titled `"T"`: the
scan returns the result for the later node `"B"`, not for `"A"`. -/
theorem gcwi_returns_last_match_witness :
    get_children_with_info (some dupTitleGraph) "T"
      = Except.ok (some (childrenResultFor dupTitleGraph
          ("B", some { title := "T", definition := "", synonyms := [] }))) :=
  gcwi_returns_last_match dupTitleGraph "T"
    ("B", some { title := "T", definition := "", synonyms := [] }) (by decide)

theorem mem_succs (g : Graph) (x w : String) :
    w ∈ succs g x ↔ (x, w) ∈ g.edges := by
  unfold succs
  rw [List.mem_map]
  constructor
  · rintro ⟨e, he, rfl⟩
    rcases List.mem_filter.mp he with ⟨hmem, hx⟩
    have : e.1 = x := of_decide_eq_true hx
    rw [show e = (x, e.2) from Prod.ext this rfl] at hmem
    exact hmem
  · intro hmem
    exact ⟨(x, w), List.mem_filter.mpr ⟨hmem, decide_eq_true rfl⟩, rfl⟩

theorem newSuccs_not_mem {g : Graph} {acc : List String} {y : String}
    (h : y ∈ newSuccs g acc) : y ∉ acc := by
  unfold newSuccs at h
  rw [List.mem_dedup, List.mem_filter] at h
  exact of_decide_eq_true h.2

theorem newSuccs_from {g : Graph} {acc : List String} {y : String}
    (h : y ∈ newSuccs g acc) : ∃ x ∈ acc, y ∈ succs g x := by
  unfold newSuccs at h
  rw [List.mem_dedup, List.mem_filter, List.mem_flatMap] at h
  exact h.1

theorem nodup_expand {g : Graph} {acc : List String} (h : acc.Nodup) :
    (expand g acc).Nodup := by
  refine List.Nodup.append h (List.nodup_dedup _) ?_
  intro a ha hn
  exact newSuccs_not_mem hn ha

theorem nodup_iterExpand (g : Graph) :
    ∀ (n : Nat) (acc : List String), acc.Nodup → (iterExpand g acc n).Nodup := by
  intro n
  induction n with
  | zero => intro acc h; exact h
  | succ n ih => intro acc h; exact ih _ (nodup_expand h)

theorem nodup_reachList (g : Graph) (u : String) : (reachList g u).Nodup :=
  nodup_iterExpand g _ [u] (List.nodup_singleton u)

theorem subset_iterExpand (g : Graph) :
    ∀ (n : Nat) (acc : List String), acc ⊆ iterExpand g acc n := by
  intro n
  induction n with
  | zero => intro acc; exact fun a ha => ha
  | succ n ih =>
    intro acc
    exact fun a ha => ih (expand g acc) (List.mem_append_left _ ha)

theorem mem_reachList_self (g : Graph) (u : String) : u ∈ reachList g u :=
  subset_iterExpand g _ [u] (List.mem_singleton_self u)

theorem iterExpand_sound (g : Graph) (u : String) :
    ∀ (n : Nat) (acc : List String),
      (∀ x ∈ acc, Relation.ReflTransGen (edgeRel g) u x) →
      ∀ v ∈ iterExpand g acc n, Relation.ReflTransGen (edgeRel g) u v := by
  intro n
  induction n with
  | zero => intro acc hacc v hv; exact hacc v hv
  | succ n ih =>
    intro acc hacc v hv
    refine ih _ ?_ v hv
    intro x hx
    rcases List.mem_append.mp hx with h | h
    · exact hacc x h
    · rcases newSuccs_from h with ⟨w, hw, hsw⟩
      exact (hacc w hw).tail ((mem_succs g w x).mp hsw)

theorem reachList_sound (g : Graph) (u : String) :
    ∀ v ∈ reachList g u, Relation.ReflTransGen (edgeRel g) u v := by
  intro v hv
  refine iterExpand_sound g u _ [u] ?_ v hv
  intro x hx
  rw [List.mem_singleton.mp hx]

theorem newSuccs_subset_notYet {g : Graph} {acc : List String} {v : String}
    (h : v ∈ newSuccs g acc) : v ∈ notYet g acc := by
  rcases newSuccs_from h with ⟨x, _, hsx⟩
  unfold notYet
  rw [List.mem_filter]
  refine ⟨?_, decide_eq_true (newSuccs_not_mem h)⟩
  exact List.mem_map.mpr ⟨(x, v), (mem_succs g x v).mp hsx, rfl⟩

theorem countP_strict {α : Type} {p q : α → Bool} (l : List α)
    (hpq : ∀ a, p a = true → q a = true) (x : α) (hx : x ∈ l)
    (hqx : q x = true) (hpx : p x = false) :
    l.countP p < l.countP q := by
  obtain ⟨s, t, rfl⟩ := List.append_of_mem hx
  rw [List.countP_append, List.countP_append, List.countP_cons,
    List.countP_cons, hqx, hpx]
  have hs : s.countP p ≤ s.countP q :=
    List.countP_mono_left fun a _ ha => hpq a ha
  have ht : t.countP p ≤ t.countP q :=
    List.countP_mono_left fun a _ ha => hpq a ha
  simp only [Bool.false_eq_true, if_false, if_true]
  omega

theorem notYet_decreases {g : Graph} {acc : List String}
    (h : newSuccs g acc ≠ []) :
    (notYet g (expand g acc)).length < (notYet g acc).length := by
  obtain ⟨v, hv⟩ := List.exists_mem_of_ne_nil _ h
  have hvy := newSuccs_subset_notYet hv
  rcases List.mem_filter.mp hvy with ⟨hvm, hvd⟩
  unfold notYet
  rw [← List.countP_eq_length_filter, ← List.countP_eq_length_filter]
  refine countP_strict _ ?_ v hvm hvd ?_
  · intro a ha
    rw [decide_eq_true_eq] at ha ⊢
    intro hmem
    exact ha (List.mem_append_left _ hmem)
  · apply decide_eq_false
    intro hnv
    exact hnv (List.mem_append_right _ hv)

theorem iterExpand_of_fix {g : Graph} {acc : List String}
    (h : newSuccs g acc = []) : ∀ n : Nat, iterExpand g acc n = acc := by
  intro n
  induction n with
  | zero => rfl
  | succ n ih =>
    show iterExpand g (expand g acc) n = acc
    rw [show expand g acc = acc by rw [expand, h, List.append_nil]]
    exact ih

theorem fixpoint_reached (g : Graph) :
    ∀ (n : Nat) (acc : List String), (notYet g acc).length ≤ n →
      newSuccs g (iterExpand g acc n) = [] := by
  intro n
  induction n with
  | zero =>
    intro acc h
    show newSuccs g acc = []
    by_contra hne
    obtain ⟨v, hv⟩ := List.exists_mem_of_ne_nil _ hne
    have hvy := newSuccs_subset_notYet hv
    rw [List.length_eq_zero.mp (Nat.le_zero.mp h)] at hvy
    cases hvy
  | succ n ih =>
    intro acc h
    show newSuccs g (iterExpand g (expand g acc) n) = []
    by_cases hz : newSuccs g acc = []
    · rw [show expand g acc = acc by rw [expand, hz, List.append_nil],
        iterExpand_of_fix hz]
      exact hz
    · exact ih _ (Nat.lt_succ_iff.mp (Nat.lt_of_lt_of_le (notYet_decreases hz) h))

theorem reachList_fix (g : Graph) (u : String) :
    newSuccs g (reachList g u) = [] := by
  refine fixpoint_reached g _ [u] ?_
  calc (notYet g [u]).length ≤ (g.edges.map (·.2)).length :=
        List.length_filter_le _ _
    _ = g.edges.length := List.length_map _ _

theorem reach_closed {g : Graph} {u v w : String}
    (hv : v ∈ reachList g u) (hw : w ∈ succs g v) : w ∈ reachList g u := by
  by_contra hwn
  have hmem : w ∈ newSuccs g (reachList g u) := by
    unfold newSuccs
    rw [List.mem_dedup, List.mem_filter]
    exact ⟨List.mem_flatMap.mpr ⟨v, hv, hw⟩, decide_eq_true hwn⟩
  rw [reachList_fix] at hmem
  cases hmem

theorem reach_complete {g : Graph} {u v : String}
    (h : Relation.ReflTransGen (edgeRel g) u v) : v ∈ reachList g u := by
  induction h with
  | refl => exact mem_reachList_self g u
  | tail _ hbc ih => exact reach_closed ih ((mem_succs g _ _).mpr hbc)

/-- C9: for the node the descendant query's scan settles on,
`all_descendants` is duplicate-free and holds exactly the nodes reachable
from it by at least one edge (itself excluded), `direct_children` is the
successor list in edge-insertion order, and the two counts are the lengths
of those collections. -/
theorem gadbt_descendants_correct (g : Graph) (t : String)
    (p : String × Option NodeAttrs)
    (h : (g.nodes.filter fun q => decide (nodeTitle q.2 = t)).getLast?
        = some p) :
    get_all_descendants_by_title (some g) t
      = Except.ok (some (descResultFor g p)) ∧
    (descResultFor g p).direct_children = succs g p.1 ∧
    (descResultFor g p).all_descendants.Nodup ∧
    (∀ v : String, v ∈ (descResultFor g p).all_descendants ↔
      (v ≠ p.1 ∧ Relation.ReflTransGen (edgeRel g) p.1 v)) ∧
    (descResultFor g p).direct_children_count
      = (descResultFor g p).direct_children.length ∧
    (descResultFor g p).total_descendants_count
      = (descResultFor g p).all_descendants.length := by
  refine ⟨?_, rfl, (nodup_reachList g p.1).filter _, ?_, rfl, rfl⟩
  · simp only [get_all_descendants_by_title]
    rw [scan_eq t (descResultFor g) g.nodes none, h]
    rfl
  · intro v
    show v ∈ descList g p.1 ↔ _
    unfold descList
    rw [List.mem_filter]
    constructor
    · rintro ⟨hr, hne⟩
      exact ⟨of_decide_eq_true hne, reachList_sound g p.1 v hr⟩
    · rintro ⟨hne, hrtg⟩
      exact ⟨reach_complete hrtg, decide_eq_true hne⟩

/-- witness for C9 on a concrete three-node chain graph. -/
theorem gadbt_descendants_correct_witness :
    get_all_descendants_by_title (some chainGraph) "Root"
      = Except.ok (some (descResultFor chainGraph
          ("A", some { title := "Root", definition := "", synonyms := [] }))) :=
  (gadbt_descendants_correct chainGraph "Root"
    ("A", some { title := "Root", definition := "", synonyms := [] })
    (by decide)).1

theorem nodes_addEdge (g : Graph) (u v : String) :
    (addEdge g u v).nodes = ensureBare (ensureBare g.nodes u) v := by
  simp only [addEdge]
  split <;> rfl

theorem edges_addNode (g : Graph) (k : String) (a : NodeAttrs) :
    (addNode g k a).edges = g.edges := rfl

theorem addEdge_edges (g : Graph) (u v : String) :
    (addEdge g u v).edges
      = if (u, v) ∈ g.edges then g.edges else g.edges ++ [(u, v)] := by
  simp only [addEdge]
  by_cases h : (u, v) ∈ g.edges
  · rw [if_pos h, if_pos h]
  · rw [if_neg h, if_neg h]

theorem mem_addEdge_edges (g : Graph) (u v : String) :
    (u, v) ∈ (addEdge g u v).edges := by
  rw [addEdge_edges]
  by_cases h : (u, v) ∈ g.edges
  · rw [if_pos h]; exact h
  · rw [if_neg h]; exact List.mem_append_right _ (List.mem_singleton_self _)

theorem edges_subset_addEdge (g : Graph) (u v : String) :
    g.edges ⊆ (addEdge g u v).edges := by
  rw [addEdge_edges]
  by_cases h : (u, v) ∈ g.edges
  · rw [if_pos h]; exact fun e he => he
  · rw [if_neg h]; exact List.subset_append_left _ _

theorem edgeFold_subset (k : String) :
    ∀ (cs : List String) (g : Graph),
      g.edges ⊆ (cs.foldl (fun h x => addEdge h k x) g).edges := by
  intro cs
  induction cs with
  | nil => intro g e he; exact he
  | cons c cs ih =>
    intro g e he
    exact ih (addEdge g k c) (edges_subset_addEdge g k c he)

theorem edgeFold_mem (k c : String) :
    ∀ (cs : List String) (g : Graph), c ∈ cs →
      (k, c) ∈ (cs.foldl (fun h x => addEdge h k x) g).edges := by
  intro cs
  induction cs with
  | nil => intro g hc; cases hc
  | cons d cs ih =>
    intro g hc
    rcases List.mem_cons.mp hc with h | h
    · subst h
      exact edgeFold_subset k cs (addEdge g k c) (mem_addEdge_edges g k c)
    · exact ih _ h

theorem edges_subset_addNodeEdges (g : Graph) (kv : String × HierarchyNode) :
    g.edges ⊆ (addNodeEdges g kv).edges := by
  unfold addNodeEdges
  intro e he
  exact edgeFold_subset kv.1 kv.2.children _ he

theorem edges_subset_buildFold :
    ∀ (l : List (String × HierarchyNode)) (g : Graph),
      g.edges ⊆ (l.foldl addNodeEdges g).edges := by
  intro l
  induction l with
  | nil => intro g e he; exact he
  | cons kv l ih =>
    intro g e he
    exact ih (addNodeEdges g kv) (edges_subset_addNodeEdges g kv he)

theorem build_edge_mem (hier : List (String × HierarchyNode))
    (k : String) (node : HierarchyNode) (c : String)
    (hmem : (k, node) ∈ hier) (hc : c ∈ node.children) :
    (k, c) ∈ (ICD11GraphBuilder.build hier).edges := by
  obtain ⟨s, t, rfl⟩ := List.append_of_mem hmem
  unfold ICD11GraphBuilder.build
  rw [List.foldl_append, List.foldl_cons]
  refine edges_subset_buildFold t _ ?_
  exact edgeFold_mem k c node.children _ hc

theorem setNodeAttrs_eq_alistSet :
    ∀ (l : List (String × Option NodeAttrs)) (k : String) (a : NodeAttrs),
      setNodeAttrs l k a = alistSet l k (some a) := by
  intro l
  induction l with
  | nil => intro k a; rfl
  | cons p l ih =>
    intro k a
    by_cases h : p.1 = k
    · simp only [setNodeAttrs, alistSet, if_pos h]
    · simp only [setNodeAttrs, alistSet, if_neg h, ih]

theorem alistGet?_ensureBare :
    ∀ (l : List (String × Option NodeAttrs)) (k c : String),
      alistGet? (ensureBare l k) c
        = match alistGet? l c with
          | some x => some x
          | none => if k = c then some none else none := by
  intro l
  induction l with
  | nil => intro k c; rfl
  | cons p l ih =>
    intro k c
    by_cases hk : p.1 = k
    · simp only [ensureBare, if_pos hk]
      by_cases hc : p.1 = c
      · simp only [alistGet?, if_pos hc]
      · simp only [alistGet?, if_neg hc]
        cases h : alistGet? l c with
        | some x => rfl
        | none => rw [if_neg fun he => hc (hk.trans he)]
    · simp only [ensureBare, if_neg hk, alistGet?]
      by_cases hc : p.1 = c
      · simp only [if_pos hc]
      · simp only [if_neg hc]
        exact ih k c

theorem nodeGet_addNode (g : Graph) (k : String) (a : NodeAttrs) (c : String) :
    alistGet? (addNode g k a).nodes c
      = if k = c then some (some a) else alistGet? g.nodes c := by
  show alistGet? (setNodeAttrs g.nodes k a) c = _
  rw [setNodeAttrs_eq_alistSet, alistGet?_alistSet]

theorem isSome_ensureBare {l : List (String × Option NodeAttrs)}
    {c : String} (k : String) (h : (alistGet? l c).isSome) :
    (alistGet? (ensureBare l k) c).isSome := by
  rw [alistGet?_ensureBare]
  cases hg : alistGet? l c with
  | none => rw [hg] at h; cases h
  | some x => rfl

theorem isSome_addEdge {g : Graph} {c : String} (u v : String)
    (h : (alistGet? g.nodes c).isSome) :
    (alistGet? (addEdge g u v).nodes c).isSome := by
  rw [nodes_addEdge]
  exact isSome_ensureBare v (isSome_ensureBare u h)

theorem isSome_addEdge_target (g : Graph) (u v : String) :
    (alistGet? (addEdge g u v).nodes v).isSome := by
  rw [nodes_addEdge, alistGet?_ensureBare]
  cases h : alistGet? (ensureBare g.nodes u) v with
  | some x => rfl
  | none => rw [if_pos rfl]; rfl

theorem isSome_edgeFold (k c : String) :
    ∀ (cs : List String) (g : Graph), (alistGet? g.nodes c).isSome →
      (alistGet? ((cs.foldl (fun h x => addEdge h k x) g)).nodes c).isSome := by
  intro cs
  induction cs with
  | nil => intro g h; exact h
  | cons d cs ih => intro g h; exact ih _ (isSome_addEdge k d h)

theorem isSome_addNode {g : Graph} {c : String} (k : String) (a : NodeAttrs)
    (h : (alistGet? g.nodes c).isSome) :
    (alistGet? (addNode g k a).nodes c).isSome := by
  rw [nodeGet_addNode]
  by_cases hk : k = c
  · rw [if_pos hk]; rfl
  · rw [if_neg hk]; exact h

theorem isSome_addNodeEdges {g : Graph} {c : String}
    (kv : String × HierarchyNode) (h : (alistGet? g.nodes c).isSome) :
    (alistGet? (addNodeEdges g kv).nodes c).isSome := by
  unfold addNodeEdges
  exact isSome_edgeFold kv.1 c kv.2.children _
    (isSome_addNode kv.1 _ h)

theorem isSome_buildFold (c : String) :
    ∀ (l : List (String × HierarchyNode)) (g : Graph),
      (alistGet? g.nodes c).isSome →
      (alistGet? ((l.foldl addNodeEdges g)).nodes c).isSome := by
  intro l
  induction l with
  | nil => intro g h; exact h
  | cons kv l ih => intro g h; exact ih _ (isSome_addNodeEdges kv h)

theorem edgeFold_target_isSome (k c : String) :
    ∀ (cs : List String) (g : Graph), c ∈ cs →
      (alistGet? ((cs.foldl (fun h x => addEdge h k x) g)).nodes c).isSome := by
  intro cs
  induction cs with
  | nil => intro g hc; cases hc
  | cons d cs ih =>
    intro g hc
    rcases List.mem_cons.mp hc with h | h
    · subst h
      exact isSome_edgeFold k c cs _ (isSome_addEdge_target g k c)
    · exact ih _ h

theorem build_node_isSome (hier : List (String × HierarchyNode))
    (k : String) (node : HierarchyNode) (c : String)
    (hmem : (k, node) ∈ hier) (hc : c ∈ node.children) :
    (alistGet? (ICD11GraphBuilder.build hier).nodes c).isSome := by
  obtain ⟨s, t, rfl⟩ := List.append_of_mem hmem
  unfold ICD11GraphBuilder.build
  rw [List.foldl_append, List.foldl_cons]
  refine isSome_buildFold c t _ ?_
  exact edgeFold_target_isSome k c node.children _ hc

theorem bareAt_ensureBare {l : List (String × Option NodeAttrs)}
    {c : String} (k : String) (h : BareAt l c) : BareAt (ensureBare l k) c := by
  unfold BareAt at h ⊢
  rw [alistGet?_ensureBare]
  rcases h with h | h
  · rw [h]
    by_cases hk : k = c
    · right; rw [if_pos hk]
    · left; rw [if_neg hk]
  · rw [h]
    right
    rfl

theorem bareAt_addEdge {g : Graph} {c : String} (u v : String)
    (h : BareAt g.nodes c) : BareAt (addEdge g u v).nodes c := by
  rw [nodes_addEdge]
  exact bareAt_ensureBare v (bareAt_ensureBare u h)

theorem bareAt_addNode {g : Graph} {c : String} (k : String) (a : NodeAttrs)
    (hk : k ≠ c) (h : BareAt g.nodes c) : BareAt (addNode g k a).nodes c := by
  unfold BareAt at h ⊢
  rw [nodeGet_addNode, if_neg hk]
  exact h

theorem bareAt_edgeFold (k c : String) :
    ∀ (cs : List String) (g : Graph), BareAt g.nodes c →
      BareAt ((cs.foldl (fun h x => addEdge h k x) g)).nodes c := by
  intro cs
  induction cs with
  | nil => intro g h; exact h
  | cons d cs ih => intro g h; exact ih _ (bareAt_addEdge k d h)

theorem bareAt_addNodeEdges {g : Graph} {c : String}
    (kv : String × HierarchyNode) (hk : kv.1 ≠ c) (h : BareAt g.nodes c) :
    BareAt (addNodeEdges g kv).nodes c := by
  unfold addNodeEdges
  exact bareAt_edgeFold kv.1 c kv.2.children _ (bareAt_addNode kv.1 _ hk h)

theorem bareAt_buildFold (c : String) :
    ∀ (l : List (String × HierarchyNode)) (g : Graph),
      (∀ p ∈ l, p.1 ≠ c) → BareAt g.nodes c →
      BareAt ((l.foldl addNodeEdges g)).nodes c := by
  intro l
  induction l with
  | nil => intro g _ h; exact h
  | cons kv l ih =>
    intro g hks h
    refine ih _ (fun p hp => hks p (List.mem_cons_of_mem kv hp)) ?_
    exact bareAt_addNodeEdges kv (hks kv (List.mem_cons_self kv l)) h

theorem build_bare_node (hier : List (String × HierarchyNode))
    (k : String) (node : HierarchyNode) (c : String)
    (hmem : (k, node) ∈ hier) (hc : c ∈ node.children)
    (hnk : ∀ p ∈ hier, p.1 ≠ c) :
    alistGet? (ICD11GraphBuilder.build hier).nodes c = some none := by
  have hsome := build_node_isSome hier k node c hmem hc
  have hbare : BareAt (ICD11GraphBuilder.build hier).nodes c :=
    bareAt_buildFold c hier ⟨[], []⟩ hnk (Or.inl rfl)
  rcases hbare with h | h
  · rw [h] at hsome; cases hsome
  · exact h

theorem childInfo_bare {g : Graph} {c : String}
    (h : alistGet? g.nodes c = some none) :
    childInfo g c = ⟨c, "N/A", "N/A", []⟩ := by
  unfold childInfo
  rw [h]

/-- C10: a short id listed among some node's children but never a key of
the hierarchy becomes a bare node of the built graph, and when the scan for
the parent's title settles on that parent, `get_children_with_info` lists
the child with title `"N/A"`, definition `"N/A"` and synonyms `[]`. -/
theorem bare_child_na_defaults (hier : List (String × HierarchyNode))
    (k c t : String) (node : HierarchyNode) (a : Option NodeAttrs)
    (hmem : (k, node) ∈ hier) (hc : c ∈ node.children)
    (hnk : ∀ p ∈ hier, p.1 ≠ c)
    (hlast : ((ICD11GraphBuilder.build hier).nodes.filter
        (fun q => decide (nodeTitle q.2 = t))).getLast? = some (k, a)) :
    alistGet? (ICD11GraphBuilder.build hier).nodes c = some none ∧
    childInfo (ICD11GraphBuilder.build hier) c = ⟨c, "N/A", "N/A", []⟩ ∧
    get_children_with_info (some (ICD11GraphBuilder.build hier)) t
      = Except.ok (some
          (childrenResultFor (ICD11GraphBuilder.build hier) (k, a))) ∧
    (⟨c, "N/A", "N/A", []⟩ : ChildInfo)
      ∈ (childrenResultFor (ICD11GraphBuilder.build hier) (k, a)).children := by
  have hbare := build_bare_node hier k node c hmem hc hnk
  refine ⟨hbare, childInfo_bare hbare, ?_, ?_⟩
  · simp only [get_children_with_info]
    rw [scan_eq t (childrenResultFor _) _ none, hlast]
    rfl
  · show _ ∈ (succs _ (k, a).1).map (childInfo _)
    rw [← childInfo_bare hbare]
    refine List.mem_map_of_mem _ ?_
    exact (mem_succs _ k c).mpr (build_edge_mem hier k node c hmem hc)

/-- witness for C10 on a concrete one-entry hierarchy whose child `"B"` is
not a key. -/
theorem bare_child_na_defaults_witness :
    alistGet? (ICD11GraphBuilder.build singleChildHier).nodes "B" = some none ∧
    childInfo (ICD11GraphBuilder.build singleChildHier) "B"
      = ⟨"B", "N/A", "N/A", []⟩ ∧
    get_children_with_info (some (ICD11GraphBuilder.build singleChildHier))
        "Root"
      = Except.ok (some (childrenResultFor
          (ICD11GraphBuilder.build singleChildHier)
          ("A", some { title := "Root", definition := "", synonyms := [] }))) ∧
    (⟨"B", "N/A", "N/A", []⟩ : ChildInfo)
      ∈ (childrenResultFor (ICD11GraphBuilder.build singleChildHier)
          ("A", some { title := "Root", definition := "", synonyms := [] })).children :=
  bare_child_na_defaults singleChildHier "A" "B" "Root"
    { title := "Root", defn := "", synonyms := [], parents := [],
      children := ["B"] }
    (some { title := "Root", definition := "", synonyms := [] })
    (by decide) (by decide) (by decide) (by decide)

/-- C4: both queries on an unbuilt graph raise the uninitialized-graph
error, never a default or empty result. -/
theorem query_before_build_errors (t : String) :
    get_children_with_info none t
      = Except.error "Graph not built. Call build() first." ∧
    get_all_descendants_by_title none t
      = Except.error "Graph not built. Call build() first." :=
  ⟨rfl, rfl⟩

end ICD11
